import Mathlib

/-
  Verification of the Canvas Archiver plugin core
  (group resolver and kanban section merger).
  The definitions below are a shallow embedding of src/main.ts
  (and, where marked, the earlier revision src/unnamed/part_000).
-/

namespace CanvasArchiver

/- String primitives mirroring the JavaScript string operations used by the code.
   Strings are modelled through their character lists. -/

def sStartsWith (s p : String) : Bool :=
  p.data.isPrefixOf s.data

def sDropN (s : String) (n : Nat) : String :=
  String.mk (s.data.drop n)

def trimChars (l : List Char) : List Char :=
  ((l.dropWhile Char.isWhitespace).reverse.dropWhile Char.isWhitespace).reverse

def sTrim (s : String) : String :=
  String.mk (trimChars s.data)

/- JavaScript split on a newline: never returns an empty list. -/
def splitNLChars : List Char → List (List Char)
  | [] => [[]]
  | c :: cs =>
    if c = '\n' then
      [] :: splitNLChars cs
    else
      match splitNLChars cs with
      | [] => [[c]]
      | l :: ls => (c :: l) :: ls

def joinRestChars : List (List Char) → List Char
  | [] => []
  | l :: ls => '\n' :: (l ++ joinRestChars ls)

/- JavaScript join with a newline separator. -/
def joinNLChars : List (List Char) → List Char
  | [] => []
  | l :: ls => l ++ joinRestChars ls

def splitLines (s : String) : List String :=
  (splitNLChars s.data).map String.mk

def joinLines (ls : List String) : String :=
  String.mk (joinNLChars (ls.map String.data))

/- card.text.replace of all newlines by the inline break marker. -/
def replaceNLBr : List Char → List Char
  | [] => []
  | c :: cs =>
    if c = '\n' then '<' :: 'b' :: 'r' :: '>' :: replaceNLBr cs
    else c :: replaceNLBr cs

/- The template literal producing one checkbox entry line from a card body. -/
def formatEntry (text : String) : String :=
  "- [ ] " ++ String.mk (replaceNLBr text.data)

def joinBrRest : List (List Char) → List Char
  | [] => []
  | l :: ls => '<' :: 'b' :: 'r' :: '>' :: (l ++ joinBrRest ls)

/- Join with the inline break marker, used to characterise replaceNLBr. -/
def joinBr : List (List Char) → List Char
  | [] => []
  | l :: ls => l ++ joinBrRest ls

/- Data model: CanvasNode fields of interest, coordinates as integers. -/

structure CanvasNode where
  id : String
  type : String
  x : Int
  y : Int
  width : Int
  height : Int
  text : Option String := none
  color : Option String := none
  label : Option String := none

structure GroupNode where
  id : String
  label : String
  x : Int
  y : Int
  width : Int
  height : Int

/- isNodeInGroup from src/main.ts lines 79-84 (identical in both revisions). -/
def isNodeInGroup (node : CanvasNode) (group : GroupNode) : Bool :=
  decide (node.x ≥ group.x) &&
    decide (node.x + node.width ≤ group.x + group.width) &&
    decide (node.y ≥ group.y) &&
    decide (node.y + node.height ≤ group.y + group.height)

/- The reduce callback of findNodeGroup in src/main.ts lines 96-100. -/
def pickSmallest (smallest current : GroupNode) : GroupNode :=
  if current.width * current.height < smallest.width * smallest.height then current
  else smallest

/- findNodeGroup from src/main.ts lines 87-103: filter the containing groups,
   then reduce to the group of smallest area (first seed, fold over the rest,
   as JavaScript reduce without an initial value). -/
def findNodeGroup (node : CanvasNode) (groups : List GroupNode) : String :=
  match groups.filter (fun g => isNodeInGroup node g) with
  | [] => "Uncategorized"
  | g :: gs => (gs.foldl pickSmallest g).label

/- findNodeGroup from the earlier revision src/unnamed/part_000 lines 87-94:
   first containing group wins. -/
def findNodeGroupOld (node : CanvasNode) (groups : List GroupNode) : String :=
  match groups.find? (fun g => isNodeInGroup node g) with
  | some g => g.label
  | none => "Uncategorized"

/- groupedCards construction, src/main.ts lines 126-136: a JavaScript Map kept
   as an insertion-ordered association list; a new key is appended at the end,
   a card is pushed onto the list of its resolved group. -/
def addCard (m : List (String × List CanvasNode)) (name : String) (card : CanvasNode) :
    List (String × List CanvasNode) :=
  match m with
  | [] => [(name, [card])]
  | p :: ps => if p.1 == name then (p.1, p.2 ++ [card]) :: ps else p :: addCard ps name card

def groupCards (cards : List CanvasNode) (groups : List GroupNode) :
    List (String × List CanvasNode) :=
  cards.foldl (fun m card => addCard m (findNodeGroup card groups) card) []

def lookupCards (m : List (String × List CanvasNode)) (k : String) : List CanvasNode :=
  match m.find? (fun p => p.1 == k) with
  | some p => p.2
  | none => []

/- Order of first assignment of the group names, used to state claim C8. -/
def firstKeys (names : List String) : List String :=
  names.foldl (fun ks n => if ks.any (fun k => k == n) then ks else ks ++ [n]) []

/- CanvasData with opaque pass-through payloads for edges and metadata. -/
structure CanvasData (E M : Type) where
  nodes : List CanvasNode
  edges : List E
  metadata : M

/- The selection predicate of lines 115-118 and 209-211 of src/main.ts. -/
def isBlueCard (node : CanvasNode) : Bool :=
  node.type == "text" && node.color == some "6"

/- updatedCanvasData construction, src/main.ts lines 208-215. -/
def updateCanvasData {E M : Type} (d : CanvasData E M) : CanvasData E M :=
  { d with nodes := d.nodes.filter (fun node => !(isBlueCard node)) }

/- The kanban metadata header literal, src/main.ts lines 153-159. -/
def header : String := "---\n\nkanban-plugin: basic\n\n---\n\n"

/- State of the forEach walk over contentLines, src/main.ts lines 162-189.
   insertIndex none models the JavaScript value -1. -/
structure MergeState where
  lines : List String
  currentGroup : String
  insertIndex : Option Nat
  pending : List (String × List String)

def hasKey (m : List (String × List String)) (k : String) : Bool :=
  m.any (fun p => p.1 == k)

def getEntries (m : List (String × List String)) (k : String) : List String :=
  match m.find? (fun p => p.1 == k) with
  | some p => p.2
  | none => []

def eraseKey (m : List (String × List String)) (k : String) :
    List (String × List String) :=
  match m with
  | [] => []
  | p :: ps => if p.1 == k then ps else p :: eraseKey ps k

/- One iteration of the forEach callback of src/main.ts lines 168-189 at index k.
   The locals line and currentGroup-assignment are inlined.  The first disjunct
   of the else-if in the source is the else of the same test and thus dead, so
   only the end-of-array condition remains; length is the current array length,
   and splice(insertIndex + 1, 0, ...cardLines) is take-append-drop. -/
def stepLine (k : Nat) (st : MergeState) : MergeState :=
  if sStartsWith (st.lines.getD k "") "## " then
    { st with
      currentGroup := sTrim (sDropN (st.lines.getD k "") 3),
      insertIndex :=
        if hasKey st.pending (sTrim (sDropN (st.lines.getD k "") 3)) then some k
        else st.insertIndex }
  else if k + 1 = st.lines.length then
    match st.insertIndex with
    | some i =>
      if hasKey st.pending st.currentGroup then
        { lines :=
            st.lines.take (i + 1) ++
              (getEntries st.pending st.currentGroup).map formatEntry ++
              st.lines.drop (i + 1),
          currentGroup := "",
          insertIndex := none,
          pending := eraseKey st.pending st.currentGroup }
      else { st with currentGroup := "" }
    | none => { st with currentGroup := "" }
  else st

/- forEach visits the indices 0 .. n-1 where n is the length of the array when
   the iteration starts. -/
def runLoop : Nat → Nat → MergeState → MergeState
  | 0, _, st => st
  | n + 1, k, st => runLoop n (k + 1) (stepLine k st)

/- The two pushes per left-over group, src/main.ts lines 192-197. -/
def blockLines (p : String × List String) : List String :=
  ("\n## " ++ p.1 ++ "\n") :: p.2.map formatEntry

def appendSection (lines : List String) (p : String × List String) : List String :=
  lines ++ blockLines p

/- The section merger of src/main.ts lines 162-199: split, walk, append the
   remaining groups, join.  The map holds the raw card texts per group name,
   formatted to entry lines at use, as in the source. -/
def mergeCore (doc : String) (m : List (String × List String)) : String :=
  let lines := splitLines doc
  let st :=
    runLoop lines.length 0
      { lines := lines, currentGroup := "", insertIndex := none, pending := m }
  joinLines (st.pending.foldl appendSection st.lines)

/- Header handling of src/main.ts lines 147-160. -/
def ensureHeader (doc : String) : String :=
  if sStartsWith doc header then doc else header ++ doc

def merge (doc : String) (m : List (String × List String)) : String :=
  mergeCore (ensureHeader doc) m

/- Plain concatenation of a list of strings, used to state claims C5 and C7. -/
def sJoin : List String → String
  | [] => ""
  | s :: ss => s ++ sJoin ss

/- The text a left-over group contributes at the end of the document:
   a blank line, the heading line, a blank line, one line per entry. -/
def sectionBlock (p : String × List String) : String :=
  "\n\n## " ++ p.1 ++ "\n" ++ sJoin (p.2.map (fun e => "\n" ++ formatEntry e))

def blocksList : List (String × List String) → List String
  | [] => []
  | p :: ps => blockLines p ++ blocksList ps

/- Helper lemmas about the string primitives. -/

theorem strData_inj {a b : String} (h : a.data = b.data) : a = b := by
  cases a; cases b; exact congrArg String.mk h

theorem data_append (a b : String) : (a ++ b).data = a.data ++ b.data := rfl

theorem splitNLChars_ne_nil (l : List Char) : splitNLChars l ≠ [] := by
  cases l with
  | nil => simp [splitNLChars]
  | cons c cs =>
    unfold splitNLChars
    by_cases hc : c = '\n'
    · simp [hc]
    · rw [if_neg hc]
      cases h : splitNLChars cs <;> simp

theorem joinNL_splitNL (l : List Char) : joinNLChars (splitNLChars l) = l := by
  induction l with
  | nil => rfl
  | cons c cs ih =>
    obtain ⟨r, rs, hr⟩ : ∃ r rs, splitNLChars cs = r :: rs := by
      cases h : splitNLChars cs with
      | nil => exact absurd h (splitNLChars_ne_nil cs)
      | cons r rs => exact ⟨r, rs, rfl⟩
    unfold splitNLChars
    by_cases hc : c = '\n'
    · rw [if_pos hc, hc, hr]
      show '\n' :: joinNLChars (r :: rs) = '\n' :: cs
      rw [← hr, ih]
    · rw [if_neg hc, hr]
      show c :: joinNLChars (r :: rs) = c :: cs
      rw [← hr, ih]

theorem joinRestChars_append (xs ys : List (List Char)) :
    joinRestChars (xs ++ ys) = joinRestChars xs ++ joinRestChars ys := by
  induction xs with
  | nil => rfl
  | cons x t ih => simp [joinRestChars, ih, List.append_assoc]

theorem joinNL_append (a : List Char) (as bs : List (List Char)) :
    joinNLChars ((a :: as) ++ bs) = joinNLChars (a :: as) ++ joinRestChars bs := by
  simp [joinNLChars, joinRestChars_append, List.append_assoc]

theorem joinLines_splitLines (s : String) : joinLines (splitLines s) = s := by
  apply strData_inj
  show joinNLChars (((splitNLChars s.data).map String.mk).map String.data) = s.data
  rw [List.map_map]
  have hid : (String.data ∘ String.mk) = id := funext fun l => rfl
  rw [hid, List.map_id, joinNL_splitNL]

theorem listGetD_mem {α : Type} (l : List α) (k : Nat) (d : α) (h : k < l.length) :
    l.getD k d ∈ l := by
  induction l generalizing k with
  | nil => simp at h
  | cons a t ih =>
    cases k with
    | zero => simp [List.getD_cons_zero]
    | succ k =>
      rw [List.getD_cons_succ]
      exact List.mem_cons_of_mem a (ih k (by simpa using h))

theorem listGetD_default {α : Type} (l : List α) (k : Nat) (d : α) (h : l.length ≤ k) :
    l.getD k d = d := by
  induction l generalizing k with
  | nil => simp [List.getD]
  | cons a t ih =>
    cases k with
    | zero => simp at h
    | succ k =>
      rw [List.getD_cons_succ]
      exact ih k (by simpa using h)

theorem runLoop_inv (P : MergeState → Prop)
    (hstep : ∀ k st, P st → P (stepLine k st)) :
    ∀ (n k : Nat) (st : MergeState), P st → P (runLoop n k st) := by
  intro n
  induction n with
  | zero => intro k st h; exact h
  | succ n ih =>
    intro k st h
    exact ih (k + 1) (stepLine k st) (hstep k st h)

theorem stepLine_keeps_empty (k : Nat) (st : MergeState) (h2 : st.pending = []) :
    (stepLine k st).lines = st.lines ∧ (stepLine k st).pending = [] := by
  unfold stepLine
  split
  · exact ⟨rfl, h2⟩
  · split
    · cases hidx : st.insertIndex with
      | none => exact ⟨rfl, h2⟩
      | some i =>
        simp only [h2, hasKey, List.any_nil, Bool.false_eq_true, if_false]
        exact ⟨trivial, trivial⟩
    · exact ⟨rfl, h2⟩

theorem mergeCore_empty_pending (doc : String) : mergeCore doc [] = doc := by
  have hinv :=
    runLoop_inv (fun st => st.lines = splitLines doc ∧ st.pending = [])
      (fun k st h => by
        have hk := stepLine_keeps_empty k st h.2
        exact ⟨hk.1.trans h.1, hk.2⟩)
      (splitLines doc).length 0
      { lines := splitLines doc, currentGroup := "", insertIndex := none, pending := [] }
      ⟨rfl, rfl⟩
  obtain ⟨h1, h2⟩ := hinv
  unfold mergeCore
  show joinLines
      (List.foldl appendSection
        (runLoop (splitLines doc).length 0
          { lines := splitLines doc, currentGroup := "", insertIndex := none,
            pending := [] }).lines
        (runLoop (splitLines doc).length 0
          { lines := splitLines doc, currentGroup := "", insertIndex := none,
            pending := [] }).pending) = doc
  rw [h1, h2, List.foldl_nil, joinLines_splitLines]

/-- C3: applying merge with an empty entries map to a document that already
begins with the metadata header returns the document unchanged byte for byte. -/
theorem merge_empty_entries_id (doc : String) (h : sStartsWith doc header = true) :
    merge doc [] = doc := by
  unfold merge ensureHeader
  rw [if_pos h]
  exact mergeCore_empty_pending doc

/-- Witness for merge_empty_entries_id at the bare header document. -/
theorem merge_empty_entries_id_w :
    merge "---\n\nkanban-plugin: basic\n\n---\n\n" [] =
      "---\n\nkanban-plugin: basic\n\n---\n\n" :=
  merge_empty_entries_id "---\n\nkanban-plugin: basic\n\n---\n\n" (by decide)

/-- C4: the header literal is prepended, exactly once and at position 0, when
the document is empty or does not begin with it, before any section
processing; a document already beginning with the header is left as it is;
merging a Todo entry into an empty document yields the header followed by a
Todo section holding one entry line. -/
theorem merge_header_handling :
    (∀ m, merge "" m = mergeCore header m) ∧
    (∀ doc m, sStartsWith doc header = true → merge doc m = mergeCore doc m) ∧
    (∀ doc m, sStartsWith doc header = false →
      merge doc m = mergeCore (header ++ doc) m) ∧
    merge "" [("Todo", ["a"])] =
      "---\n\nkanban-plugin: basic\n\n---\n\n\n\n## Todo\n\n- [ ] a" := by
  refine ⟨?_, ?_, ?_, ?_⟩
  · intro m
    unfold merge ensureHeader
    rw [if_neg (by decide)]
    congr 1
  · intro doc m h
    unfold merge ensureHeader
    rw [if_pos h]
  · intro doc m h
    unfold merge ensureHeader
    rw [if_neg (by simp [h])]
  · decide

/-- Witness for merge_header_handling at a header-initial document. -/
theorem merge_header_handling_w :
    merge "---\n\nkanban-plugin: basic\n\n---\n\n" [("X", ["x"])] =
      mergeCore "---\n\nkanban-plugin: basic\n\n---\n\n" [("X", ["x"])] :=
  merge_header_handling.2.1 "---\n\nkanban-plugin: basic\n\n---\n\n" [("X", ["x"])]
    (by decide)

/-- C1: evaluation at a failing input.  The document contains a heading for
group A followed by a heading for B; the entries for A are not spliced after
the A heading, A is not removed from the pending map, and a duplicate A
section is appended at the end of the document instead. -/
theorem mergeFlush_bug_eval :
    merge "---\n\nkanban-plugin: basic\n\n---\n\n## A\n## B\n" [("A", ["a"])] =
      "---\n\nkanban-plugin: basic\n\n---\n\n## A\n## B\n\n\n## A\n\n- [ ] a" := by
  decide

theorem foldl_appendSection (m : List (String × List String)) :
    ∀ ls : List String, m.foldl appendSection ls = ls ++ blocksList m := by
  induction m with
  | nil => intro ls; simp [blocksList]
  | cons p ps ih =>
    intro ls
    rw [List.foldl_cons, ih]
    simp [appendSection, blocksList, List.append_assoc]

theorem joinRest_entries (es : List String) :
    joinRestChars ((es.map formatEntry).map String.data) =
      (sJoin (es.map (fun e => "\n" ++ formatEntry e))).data := by
  induction es with
  | nil => rfl
  | cons e es ih =>
    show '\n' ::
        ((formatEntry e).data ++ joinRestChars ((es.map formatEntry).map String.data)) =
      (("\n" ++ formatEntry e) ++ sJoin (es.map (fun x => "\n" ++ formatEntry x))).data
    rw [ih, data_append, data_append]
    simp [List.append_assoc]

theorem joinRest_block (p : String × List String) :
    joinRestChars ((blockLines p).map String.data) = (sectionBlock p).data := by
  show '\n' ::
      (("\n## " ++ p.1 ++ "\n").data ++
        joinRestChars ((p.2.map formatEntry).map String.data)) =
    (sectionBlock p).data
  rw [joinRest_entries]
  unfold sectionBlock
  simp [data_append, List.append_assoc]

theorem joinRest_blocks (m : List (String × List String)) :
    joinRestChars ((blocksList m).map String.data) =
      (sJoin (m.map sectionBlock)).data := by
  induction m with
  | nil => rfl
  | cons p ps ih =>
    show joinRestChars ((blockLines p ++ blocksList ps).map String.data) = _
    rw [List.map_append, joinRestChars_append, joinRest_block, ih]
    show _ = (sectionBlock p ++ sJoin (ps.map sectionBlock)).data
    rw [data_append]

theorem stepLine_absent (L : List String) (m : List (String × List String))
    (habs : ∀ p ∈ m, ∀ line ∈ L,
      ¬(sStartsWith line "## " = true ∧ sTrim (sDropN line 3) = p.1))
    (k : Nat) (st : MergeState)
    (h : st.lines = L ∧ st.pending = m ∧ st.insertIndex = none) :
    (stepLine k st).lines = L ∧ (stepLine k st).pending = m ∧
      (stepLine k st).insertIndex = none := by
  obtain ⟨h1, h2, h3⟩ := h
  unfold stepLine
  split
  next hhead =>
    refine ⟨h1, h2, ?_⟩
    have hk : k < st.lines.length := by
      by_contra hk
      push_neg at hk
      rw [listGetD_default st.lines k "" hk] at hhead
      exact absurd hhead (by decide)
    have hmem : st.lines.getD k "" ∈ L := h1 ▸ listGetD_mem st.lines k "" hk
    cases hK : hasKey st.pending (sTrim (sDropN (st.lines.getD k "") 3)) with
    | false => simp [h3]
    | true =>
      exfalso
      rw [h2] at hK
      unfold hasKey at hK
      obtain ⟨p, hp, hbeq⟩ := List.any_eq_true.mp hK
      exact habs p hp _ hmem ⟨hhead, (eq_of_beq hbeq).symm⟩
  next hhead =>
    split
    next hlast =>
      rw [h3]
      exact ⟨h1, h2, rfl⟩
    next => exact ⟨h1, h2, h3⟩

/-- C5: for an entries map none of whose group names has a heading line in the
document, merge leaves the document intact and appends, per group in map
order, a blank line, a heading line bearing the group name, a blank line, and
one line per entry. -/
theorem merge_appends_new_sections (doc : String) (m : List (String × List String))
    (hh : sStartsWith doc header = true)
    (habs : ∀ p ∈ m, ∀ line ∈ splitLines doc,
      ¬(sStartsWith line "## " = true ∧ sTrim (sDropN line 3) = p.1)) :
    merge doc m = doc ++ sJoin (m.map sectionBlock) := by
  unfold merge ensureHeader
  rw [if_pos hh]
  have hinv :=
    runLoop_inv
      (fun st => st.lines = splitLines doc ∧ st.pending = m ∧ st.insertIndex = none)
      (fun k st h => stepLine_absent (splitLines doc) m habs k st h)
      (splitLines doc).length 0
      { lines := splitLines doc, currentGroup := "", insertIndex := none, pending := m }
      ⟨rfl, rfl, rfl⟩
  obtain ⟨h1, h2, h3⟩ := hinv
  unfold mergeCore
  show joinLines
      (List.foldl appendSection
        (runLoop (splitLines doc).length 0
          { lines := splitLines doc, currentGroup := "", insertIndex := none,
            pending := m }).lines
        (runLoop (splitLines doc).length 0
          { lines := splitLines doc, currentGroup := "", insertIndex := none,
            pending := m }).pending) = doc ++ sJoin (m.map sectionBlock)
  rw [h1, h2, foldl_appendSection m (splitLines doc)]
  obtain ⟨r, rs, hr⟩ : ∃ r rs, splitNLChars doc.data = r :: rs := by
    cases hsp : splitNLChars doc.data with
    | nil => exact absurd hsp (splitNLChars_ne_nil _)
    | cons r rs => exact ⟨r, rs, rfl⟩
  apply strData_inj
  rw [data_append]
  show joinNLChars ((splitLines doc ++ blocksList m).map String.data) =
    doc.data ++ (sJoin (m.map sectionBlock)).data
  rw [List.map_append]
  have hmap : (splitLines doc).map String.data = splitNLChars doc.data := by
    unfold splitLines
    rw [List.map_map]
    have hid : (String.data ∘ String.mk) = id := funext fun l => rfl
    rw [hid, List.map_id]
  rw [hmap, hr, joinNL_append, ← hr, joinNL_splitNL, joinRest_blocks]

/-- Witness for merge_appends_new_sections at the bare header document and a
single new Todo group. -/
theorem merge_appends_new_sections_w :
    merge "---\n\nkanban-plugin: basic\n\n---\n\n" [("Todo", ["a"])] =
      "---\n\nkanban-plugin: basic\n\n---\n\n" ++
        sJoin ([("Todo", ["a"])].map sectionBlock) :=
  merge_appends_new_sections "---\n\nkanban-plugin: basic\n\n---\n\n"
    [("Todo", ["a"])] (by decide) (by decide)

/-- C6: the containment test is inclusive on all four boundaries: a candidate
whose rectangle edges exactly coincide with the group rectangle edges counts
as contained. -/
theorem isNodeInGroup_inclusive (node : CanvasNode) (group : GroupNode)
    (hx : node.x = group.x) (hy : node.y = group.y)
    (hw : node.x + node.width = group.x + group.width)
    (hh : node.y + node.height = group.y + group.height) :
    isNodeInGroup node group = true := by
  simp [isNodeInGroup, hx, hy, hw, hh]
  omega

/-- Witness for isNodeInGroup_inclusive at a node flush with its group. -/
theorem isNodeInGroup_inclusive_w :
    isNodeInGroup ⟨"n", "text", 1, 2, 3, 4, none, none, none⟩
      ⟨"g", "G", 1, 2, 3, 4⟩ = true :=
  isNodeInGroup_inclusive ⟨"n", "text", 1, 2, 3, 4, none, none, none⟩
    ⟨"g", "G", 1, 2, 3, 4⟩ rfl rfl rfl rfl

theorem foldl_pick (gs : List GroupNode) :
    ∀ g : GroupNode,
      ∃ l1 l2,
        g :: gs = l1 ++ (gs.foldl pickSmallest g) :: l2 ∧
        (∀ x ∈ l1,
          (gs.foldl pickSmallest g).width * (gs.foldl pickSmallest g).height <
            x.width * x.height) ∧
        (∀ x ∈ g :: gs,
          (gs.foldl pickSmallest g).width * (gs.foldl pickSmallest g).height ≤
            x.width * x.height) := by
  induction gs with
  | nil =>
    intro g
    refine ⟨[], [], rfl, by simp, ?_⟩
    intro x hx
    rw [List.foldl_nil]
    rw [List.mem_singleton] at hx
    rw [hx]
  | cons c cs ih =>
    intro g
    rw [List.foldl_cons]
    by_cases hc : c.width * c.height < g.width * g.height
    · have hpick : pickSmallest g c = c := by unfold pickSmallest; rw [if_pos hc]
      rw [hpick]
      obtain ⟨l1, l2, hdec, hlt, hle⟩ := ih c
      refine ⟨g :: l1, l2, ?_, ?_, ?_⟩
      · rw [List.cons_append]
        exact congrArg (List.cons g) hdec
      · intro x hx
        rcases List.mem_cons.mp hx with hxg | hxl
        · rw [hxg]
          exact lt_of_le_of_lt (hle c (List.mem_cons_self c cs)) hc
        · exact hlt x hxl
      · intro x hx
        rcases List.mem_cons.mp hx with hxg | hxt
        · rw [hxg]
          exact le_of_lt (lt_of_le_of_lt (hle c (List.mem_cons_self c cs)) hc)
        · exact hle x hxt
    · have hpick : pickSmallest g c = g := by unfold pickSmallest; rw [if_neg hc]
      rw [hpick]
      have hgc : g.width * g.height ≤ c.width * c.height := le_of_not_lt hc
      obtain ⟨l1, l2, hdec, hlt, hle⟩ := ih g
      cases l1 with
      | nil =>
        rw [List.nil_append] at hdec
        injection hdec with hres hl2
        refine ⟨[], c :: l2, ?_, by simp, ?_⟩
        · rw [List.nil_append, ← hres, ← hl2]
        · intro x hx
          rcases List.mem_cons.mp hx with hxg | hx2
          · rw [hxg, ← hres]
          · rcases List.mem_cons.mp hx2 with hxc | hxcs
            · rw [hxc, ← hres]
              exact hgc
            · exact hle x (List.mem_cons_of_mem g hxcs)
      | cons y t =>
        rw [List.cons_append] at hdec
        injection hdec with hgy hcs
        have hry :
            (cs.foldl pickSmallest g).width * (cs.foldl pickSmallest g).height <
              y.width * y.height :=
          hlt y (List.mem_cons_self y t)
        rw [← hgy] at hry
        refine ⟨g :: c :: t, l2, ?_, ?_, ?_⟩
        · rw [List.cons_append, List.cons_append, ← hcs]
        · intro x hx
          rcases List.mem_cons.mp hx with hxg | hx2
          · rw [hxg]
            exact hry
          · rcases List.mem_cons.mp hx2 with hxc | hxt
            · rw [hxc]
              exact lt_of_lt_of_le hry hgc
            · exact hlt x (List.mem_cons_of_mem y hxt)
        · intro x hx
          rcases List.mem_cons.mp hx with hxg | hx2
          · rw [hxg]
            exact hle g (List.mem_cons_self g cs)
          · rcases List.mem_cons.mp hx2 with hxc | hxcs
            · rw [hxc]
              exact le_trans (hle g (List.mem_cons_self g cs)) hgc
            · exact hle x (List.mem_cons_of_mem g hxcs)

/-- C2: when at least two groups contain the candidate, findNodeGroup returns
the label of a containing group of smallest area; every containing group
listed before it (the containing groups keep the input order) has strictly
larger area, so an area tie is won by the first occurrence in the input. -/
theorem findNodeGroup_smallest_area (node : CanvasNode) (groups : List GroupNode)
    (h : 2 ≤ (groups.filter (fun g => isNodeInGroup node g)).length) :
    ∃ g l1 l2,
      groups.filter (fun g => isNodeInGroup node g) = l1 ++ g :: l2 ∧
      findNodeGroup node groups = g.label ∧
      (∀ g2 ∈ groups.filter (fun g => isNodeInGroup node g),
        g.width * g.height ≤ g2.width * g2.height) ∧
      (∀ g2 ∈ l1, g.width * g.height < g2.width * g2.height) := by
  cases hm : groups.filter (fun g => isNodeInGroup node g) with
  | nil => rw [hm] at h; simp at h
  | cons g0 gs =>
    obtain ⟨l1, l2, hdec, hlt, hle⟩ := foldl_pick gs g0
    refine ⟨gs.foldl pickSmallest g0, l1, l2, ?_, ?_, ?_, ?_⟩
    · exact hdec
    · unfold findNodeGroup
      rw [hm]
    · intro g2 hg2
      exact hle g2 hg2
    · exact hlt

/-- Witness for findNodeGroup_smallest_area: a node inside two nested groups
is assigned to the smaller one even though the bigger comes first. -/
theorem findNodeGroup_smallest_area_w :
    ∃ g l1 l2,
      [(⟨"g1", "Big", 0, 0, 10, 10⟩ : GroupNode), ⟨"g2", "Small", 0, 0, 2, 2⟩].filter
          (fun g => isNodeInGroup ⟨"n", "text", 0, 0, 1, 1, none, none, none⟩ g) =
        l1 ++ g :: l2 ∧
      findNodeGroup ⟨"n", "text", 0, 0, 1, 1, none, none, none⟩
          [⟨"g1", "Big", 0, 0, 10, 10⟩, ⟨"g2", "Small", 0, 0, 2, 2⟩] = g.label ∧
      (∀ g2 ∈
          [(⟨"g1", "Big", 0, 0, 10, 10⟩ : GroupNode), ⟨"g2", "Small", 0, 0, 2, 2⟩].filter
            (fun g => isNodeInGroup ⟨"n", "text", 0, 0, 1, 1, none, none, none⟩ g),
        g.width * g.height ≤ g2.width * g2.height) ∧
      (∀ g2 ∈ l1, g.width * g.height < g2.width * g2.height) :=
  findNodeGroup_smallest_area ⟨"n", "text", 0, 0, 1, 1, none, none, none⟩
    [⟨"g1", "Big", 0, 0, 10, 10⟩, ⟨"g2", "Small", 0, 0, 2, 2⟩] (by decide)

theorem findFirst_eq_filterHead {α : Type} (p : α → Bool) (l : List α) :
    l.find? p = (l.filter p).head? := by
  induction l with
  | nil => rfl
  | cons a t ih =>
    cases hpa : p a
    · rw [List.find?_cons_of_neg _ (by simp [hpa]),
        List.filter_cons_of_neg (by simp [hpa]), ih]
    · rw [List.find?_cons_of_pos _ hpa, List.filter_cons_of_pos hpa]
      rfl

/-- C10: when at most one group contains the node, the first-match resolution
of the earlier revision and the smallest-area resolution of the current one
agree: the label of the unique containing group, or Uncategorized when no
group contains the node. -/
theorem findNodeGroup_refines_old (node : CanvasNode) (groups : List GroupNode)
    (h : (groups.filter (fun g => isNodeInGroup node g)).length ≤ 1) :
    findNodeGroupOld node groups = findNodeGroup node groups ∧
    (groups.filter (fun g => isNodeInGroup node g) = [] →
      findNodeGroup node groups = "Uncategorized") ∧
    (∀ g, groups.filter (fun g => isNodeInGroup node g) = [g] →
      findNodeGroup node groups = g.label) := by
  have hfind :
      groups.find? (fun g => isNodeInGroup node g) =
        (groups.filter (fun g => isNodeInGroup node g)).head? :=
    findFirst_eq_filterHead _ _
  cases hm : groups.filter (fun g => isNodeInGroup node g) with
  | nil =>
    refine ⟨?_, fun _ => ?_, fun g hg => ?_⟩
    · unfold findNodeGroupOld findNodeGroup
      rw [hfind, hm]
      rfl
    · unfold findNodeGroup
      rw [hm]
    · exact absurd hg (by simp)
  | cons g0 gs =>
    have hgs : gs = [] := by
      rw [hm] at h
      simp only [List.length_cons] at h
      exact List.length_eq_zero.mp (by omega)
    subst hgs
    refine ⟨?_, fun hc => ?_, fun g hg => ?_⟩
    · unfold findNodeGroupOld findNodeGroup
      rw [hfind, hm]
      rfl
    · exact absurd hc (by simp)
    · injection hg with h1 h2
      unfold findNodeGroup
      rw [hm]
      show (List.foldl pickSmallest g0 []).label = g.label
      rw [List.foldl_nil, h1]

/-- Witness for findNodeGroup_refines_old with exactly one containing group. -/
theorem findNodeGroup_refines_old_w :
    findNodeGroupOld ⟨"n", "text", 0, 0, 1, 1, none, none, none⟩
        [⟨"g1", "A", 0, 0, 5, 5⟩, ⟨"g2", "B", 100, 100, 5, 5⟩] =
      findNodeGroup ⟨"n", "text", 0, 0, 1, 1, none, none, none⟩
        [⟨"g1", "A", 0, 0, 5, 5⟩, ⟨"g2", "B", 100, 100, 5, 5⟩] :=
  (findNodeGroup_refines_old ⟨"n", "text", 0, 0, 1, 1, none, none, none⟩
    [⟨"g1", "A", 0, 0, 5, 5⟩, ⟨"g2", "B", 100, 100, 5, 5⟩] (by decide)).1

theorem replaceNLBr_no_newline (l : List Char) : '\n' ∉ replaceNLBr l := by
  induction l with
  | nil => simp [replaceNLBr]
  | cons c cs ih =>
    unfold replaceNLBr
    by_cases hc : c = '\n'
    · rw [if_pos hc]
      intro hmem
      simp only [List.mem_cons] at hmem
      rcases hmem with h | h | h | h | h
      · exact absurd h (by decide)
      · exact absurd h (by decide)
      · exact absurd h (by decide)
      · exact absurd h (by decide)
      · exact ih h
    · rw [if_neg hc]
      intro hmem
      rcases List.mem_cons.mp hmem with he | h2
      · exact hc he.symm
      · exact ih h2

theorem replaceNLBr_eq_joinBr (l : List Char) :
    replaceNLBr l = joinBr (splitNLChars l) := by
  induction l with
  | nil => rfl
  | cons c cs ih =>
    obtain ⟨r, rs, hr⟩ : ∃ r rs, splitNLChars cs = r :: rs := by
      cases h : splitNLChars cs with
      | nil => exact absurd h (splitNLChars_ne_nil cs)
      | cons r rs => exact ⟨r, rs, rfl⟩
    unfold replaceNLBr splitNLChars
    by_cases hc : c = '\n'
    · rw [if_pos hc, if_pos hc, hr]
      show '<' :: 'b' :: 'r' :: '>' :: replaceNLBr cs = joinBr ([] :: r :: rs)
      have hjb : joinBr ([] :: r :: rs) = '<' :: 'b' :: 'r' :: '>' :: joinBr (r :: rs) := rfl
      rw [hjb, ← hr, ih]
    · rw [if_neg hc, if_neg hc, hr]
      show c :: replaceNLBr cs = joinBr ((c :: r) :: rs)
      have hjb : joinBr ((c :: r) :: rs) = c :: joinBr (r :: rs) := rfl
      rw [hjb, ← hr, ih]

/-- C7: a generated entry is the checkbox marker followed by the body text
with every embedded newline replaced by the inline break marker: the entry
contains no newline, so it occupies exactly one physical line, and the body
line1-newline-line2 yields the single line with the br marker. -/
theorem formatEntry_single_line :
    (∀ s : String, '\n' ∉ (formatEntry s).data ∧
      (formatEntry s).data = ("- [ ] ").data ++ joinBr (splitNLChars s.data)) ∧
    formatEntry "line1\nline2" = "- [ ] line1<br>line2" := by
  refine ⟨fun s => ⟨?_, ?_⟩, by decide⟩
  · intro hmem
    have hdata : (formatEntry s).data = ("- [ ] ").data ++ replaceNLBr s.data := rfl
    rw [hdata] at hmem
    rcases List.mem_append.mp hmem with h | h
    · exact absurd h (by decide)
    · exact replaceNLBr_no_newline s.data h
  · have hdata : (formatEntry s).data = ("- [ ] ").data ++ replaceNLBr s.data := rfl
    rw [hdata, replaceNLBr_eq_joinBr]

/-- Witness for formatEntry_single_line at a two-line body. -/
theorem formatEntry_single_line_w :
    (formatEntry "line1\nline2").data =
      ("- [ ] ").data ++ joinBr (splitNLChars ("line1\nline2").data) :=
  (formatEntry_single_line.1 "line1\nline2").2

theorem addCard_keys (m : List (String × List CanvasNode)) (name : String)
    (card : CanvasNode) :
    (addCard m name card).map Prod.fst =
      if (m.map Prod.fst).any (fun k => k == name) then m.map Prod.fst
      else m.map Prod.fst ++ [name] := by
  induction m with
  | nil => simp [addCard]
  | cons p ps ih =>
    by_cases hb : p.1 = name
    · simp [addCard, hb, List.any_cons]
    · simp only [addCard, List.map_cons, List.any_cons, ih,
        beq_iff_eq, hb, if_false, Bool.false_or]
      by_cases hA : (ps.map Prod.fst).any (fun k => k == name) = true
      · simp [hA, hb]
      · simp [hA, hb]

theorem lookupCards_addCard_self (m : List (String × List CanvasNode))
    (name : String) (card : CanvasNode) :
    lookupCards (addCard m name card) name = lookupCards m name ++ [card] := by
  induction m with
  | nil => simp [addCard, lookupCards]
  | cons p ps ih =>
    by_cases hb : p.1 = name
    · simp [addCard, lookupCards, hb]
    · have hbb : (p.1 == name) = false := by simp [hb]
      have h1 : ¬((p.1 == name) = true) := by simp [hb]
      simp only [addCard, hbb, Bool.false_eq_true, if_false]
      unfold lookupCards
      rw [List.find?_cons_of_neg (addCard ps name card) h1,
        List.find?_cons_of_neg ps h1]
      exact ih

theorem lookupCards_addCard_ne (m : List (String × List CanvasNode))
    (name k : String) (card : CanvasNode) (hk : k ≠ name) :
    lookupCards (addCard m name card) k = lookupCards m k := by
  have hnk : ¬((name == k) = true) := by
    simp only [beq_iff_eq]
    exact fun h => hk h.symm
  induction m with
  | nil =>
    have hf : (name == k) = false := by
      cases h : (name == k)
      · rfl
      · exact absurd h hnk
    show lookupCards [(name, [card])] k = lookupCards [] k
    unfold lookupCards
    rw [List.find?_singleton]
    simp [hf]
  | cons p ps ih =>
    by_cases hb : p.1 = name
    · have hbb : (p.1 == name) = true := by simp [hb]
      have h1 : ¬((p.1 == k) = true) := by
        simp only [beq_iff_eq, hb]
        exact fun h => hk h.symm
      simp only [addCard, hbb, if_true]
      unfold lookupCards
      rw [List.find?_cons_of_neg ps h1, List.find?_cons_of_neg ps h1]
    · have hbb : (p.1 == name) = false := by simp [hb]
      simp only [addCard, hbb, Bool.false_eq_true, if_false]
      by_cases hpk : p.1 = k
      · have h1 : ((p.1 == k) = true) := by simp [hpk]
        unfold lookupCards
        rw [List.find?_cons_of_pos (addCard ps name card) h1,
          List.find?_cons_of_pos ps h1]
      · have h1 : ¬((p.1 == k) = true) := by simp [hpk]
        unfold lookupCards
        rw [List.find?_cons_of_neg (addCard ps name card) h1,
          List.find?_cons_of_neg ps h1]
        exact ih

theorem groupFold_keys (groups : List GroupNode) (cards : List CanvasNode) :
    ∀ m : List (String × List CanvasNode),
      ((cards.foldl (fun m card => addCard m (findNodeGroup card groups) card) m).map
          Prod.fst) =
        (cards.map (fun c => findNodeGroup c groups)).foldl
          (fun ks n => if ks.any (fun k => k == n) then ks else ks ++ [n])
          (m.map Prod.fst) := by
  induction cards with
  | nil => intro m; rfl
  | cons c cs ih =>
    intro m
    rw [List.foldl_cons, List.map_cons, List.foldl_cons, ih, addCard_keys]

theorem groupFold_lookup (groups : List GroupNode) (cards : List CanvasNode) :
    ∀ (m : List (String × List CanvasNode)) (n : String),
      lookupCards
          (cards.foldl (fun m card => addCard m (findNodeGroup card groups) card) m) n =
        lookupCards m n ++ cards.filter (fun c => findNodeGroup c groups == n) := by
  induction cards with
  | nil => intro m n; simp
  | cons c cs ih =>
    intro m n
    rw [List.foldl_cons, ih]
    by_cases hcn : findNodeGroup c groups = n
    · rw [List.filter_cons_of_pos (by simpa using hcn)]
      subst hcn
      rw [lookupCards_addCard_self]
      simp [List.append_assoc]
    · rw [List.filter_cons_of_neg (by simpa using hcn)]
      rw [lookupCards_addCard_ne m (findNodeGroup c groups) n c
        (fun h => hcn h.symm)]

/-- C8: the grouped-cards map lists its group names in the order the cards
are first assigned to them, and the list held under each name consists
exactly of the cards resolving to that name, in input order, so every card
appears in exactly one group list. -/
theorem groupCards_ordered (cards : List CanvasNode) (groups : List GroupNode) :
    (groupCards cards groups).map Prod.fst =
      firstKeys (cards.map (fun c => findNodeGroup c groups)) ∧
    ∀ n, lookupCards (groupCards cards groups) n =
      cards.filter (fun c => findNodeGroup c groups == n) := by
  constructor
  · exact groupFold_keys groups cards []
  · intro n
    exact groupFold_lookup groups cards [] n

/-- C9: the updated canvas passes edges and metadata through unchanged and
its node list is the original one with exactly the blue text cards removed:
a sublist of the original, whose members are exactly the non-blue originals. -/
theorem updateCanvasData_frame {E M : Type} (d : CanvasData E M) :
    (updateCanvasData d).edges = d.edges ∧
    (updateCanvasData d).metadata = d.metadata ∧
    (updateCanvasData d).nodes.Sublist d.nodes ∧
    ∀ n, n ∈ (updateCanvasData d).nodes ↔ n ∈ d.nodes ∧ isBlueCard n = false := by
  refine ⟨rfl, rfl, List.filter_sublist _, ?_⟩
  intro n
  simp [updateCanvasData, List.mem_filter]

end CanvasArchiver
